import Mathlib

set_option autoImplicit false

namespace OutPilot

/-!
Shallow embedding of the email-resolution core of the OutPilot repository:
`src/research/email_research_quota.py`, `src/research/accurate_email_finder.py`,
`src/research/email_finder.py`, `src/research/domain_finder.py`.

Python strings are modelled as Lean `String`, with the handful of string
operations the code uses (`str.replace`, `str.split`, `str.lower`, regex
character filtering, substring tests) implemented structurally on the
underlying `List Char` so that everything is executable and kernel-reducible.
All inputs are assumed ASCII, matching the code's `[^a-z]`-style regexes.
-/

/-- Python `\s` (ASCII part): the whitespace class used by `re.sub(r"\s+", " ", ...)`
and `str.strip()`. -/
def pyIsSpace (c : Char) : Bool :=
  c = ' ' || c = '\t' || c = '\n' || c = '\r' || c = Char.ofNat 11 || c = Char.ofNat 12

/-- Membership in the regex class `[a-z]`. -/
def isAz (c : Char) : Bool := 'a' ≤ c && c ≤ 'z'

/-- Membership in the regex class `[a-z0-9]`. -/
def isAlnumLow (c : Char) : Bool := isAz c || ('0' ≤ c && c ≤ '9')

/-- The character `{` (placeholder opener in the email pattern templates). -/
def lbrace : Char := Char.ofNat 123

/-- `re.sub(r"[^a-z]", "", s.lower())`: lowercase then keep only `a`-`z`. -/
def normTokL (l : List Char) : List Char := (l.map Char.toLower).filter isAz

/-- `re.sub(r"[^a-z]", "", s.lower())` at `String` level (used by
`EmailFinder.find_email` on the raw first/last names). -/
def normTok (s : String) : String := ⟨normTokL s.data⟩

/-- Boolean list-prefix test (`a` is a prefix of `b`). -/
def isPrefixOfL : List Char → List Char → Bool
  | [], _ => true
  | _ :: _, [] => false
  | a :: as, b :: bs => a == b && isPrefixOfL as bs

/-- Python `needle in haystack` substring test. -/
def isInfixL (n : List Char) : List Char → Bool
  | [] => isPrefixOfL n []
  | c :: cs => isPrefixOfL n (c :: cs) || isInfixL n cs

/-- Fuel-driven model of Python `str.replace` (leftmost, non-overlapping, the
replacement is not rescanned).  The fuel is an upper bound on the number of
scanning steps; `replaceL` below instantiates it with the list length, which
always suffices because each step consumes at least one character. -/
def replaceFuel (pat rep : List Char) : Nat → List Char → List Char
  | _, [] => []
  | 0, l => l
  | fuel + 1, c :: cs =>
    if isPrefixOfL pat (c :: cs) ∧ pat ≠ [] then
      rep ++ replaceFuel pat rep fuel ((c :: cs).drop pat.length)
    else
      c :: replaceFuel pat rep fuel cs

/-- Python `str.replace pat rep` on char lists (the placeholder patterns used by
the code are never empty, so the `pat = []` guard is never exercised). -/
def replaceL (pat rep l : List Char) : List Char := replaceFuel pat rep l.length l

/-- Python `s.replace(pat, rep)` on strings. -/
def pyReplace (s pat rep : String) : String := ⟨replaceL pat.data rep.data s.data⟩

/-- `email.split("@")[0]`: everything before the first `@` (the whole string if
there is no `@`). -/
def localPartL (e : String) : List Char := e.data.takeWhile (fun c => c ≠ '@')

/-- `s[0]` as a one-character string, or `""` when `s` is empty (the code
guards with `first[0] if first else ""`). -/
def take1 (s : String) : String := ⟨s.data.take 1⟩

/-- Python `str.strip()` (ASCII whitespace). -/
def stripWS (l : List Char) : List Char :=
  ((l.dropWhile pyIsSpace).reverse.dropWhile pyIsSpace).reverse

/-- Maximal runs of characters satisfying `p` (model of `re.findall(r"[cls]+", s)`
and of splitting on whitespace runs).  `cur` accumulates the current run in
reverse. -/
def wordRunsAux (p : Char → Bool) : List Char → List Char → List (List Char)
  | [], cur => if cur = [] then [] else [cur.reverse]
  | c :: cs, cur =>
    if p c then wordRunsAux p cs (c :: cur)
    else if cur = [] then wordRunsAux p cs []
    else cur.reverse :: wordRunsAux p cs []

/-- Maximal runs of characters satisfying `p`. -/
def wordRuns (p : Char → Bool) (l : List Char) : List (List Char) :=
  wordRunsAux p l []

/-- Last element of a nonempty-by-construction list, with a default. -/
def lastD {α : Type} : List α → α → α
  | [], d => d
  | [x], _ => x
  | _ :: y :: ys, d => lastD (y :: ys) d

/-- Normalized name tokens consist of `a`-`z` characters only. -/
theorem normTokL_az (l : List Char) : ∀ c ∈ normTokL l, isAz c = true := by
  intro c hc
  exact (List.mem_filter.mp hc).2

/-!
## Quota tracker — `src/research/email_research_quota.py`
-/

/-- The persisted quota record as seen by `EmailResearchQuota._load`:
either the file is missing, or reading/JSON-parsing it failed (the
`except Exception: return 0` branch), or it holds a date string and a count. -/
inductive QuotaRecord where
  | missing
  | unreadable
  | valid (date : String) (count : Int)
deriving DecidableEq

/-- `EmailResearchQuota._load`: 0 when the file is missing or unreadable, 0 when
the stored date is not today, else the stored count. -/
def load_count (today : String) : QuotaRecord → Int
  | .missing => 0
  | .unreadable => 0
  | .valid d c => if d ≠ today then 0 else c

/-- In-memory state of an `EmailResearchQuota` object. -/
structure QuotaState where
  daily_limit : Int
  count : Int
deriving DecidableEq

/-- `EmailResearchQuota.__init__`: `daily_limit = max(1, int(daily_limit))`,
`_count = _load()`. -/
def quota_init (dailyLimit : Int) (today : String) (rec : QuotaRecord) : QuotaState :=
  { daily_limit := max 1 dailyLimit, count := load_count today rec }

/-- `EmailResearchQuota.can_process`. -/
def can_process (q : QuotaState) : Bool := q.count < q.daily_limit

/-- `EmailResearchQuota.remaining`. -/
def remaining (q : QuotaState) : Int := max 0 (q.daily_limit - q.count)

/-- `EmailResearchQuota.increment` (the `_save` side effect only persists the
state and does not change it). -/
def increment (q : QuotaState) (n : Int) : QuotaState :=
  { q with count := q.count + max 1 n }

/-- Claim C9: on construction, `EmailResearchQuota` treats the loaded count as 0
whenever the persisted record is missing, unreadable/malformed, or carries a
date different from today; in all of these states `can_process()` is true and
`remaining()` equals the object's `daily_limit`. -/
theorem quota_load_fail_open (dailyLimit : Int) (today : String) (rec : QuotaRecord)
    (h : rec = .missing ∨ rec = .unreadable ∨
         ∃ d c, rec = .valid d c ∧ d ≠ today) :
    (quota_init dailyLimit today rec).count = 0 ∧
    can_process (quota_init dailyLimit today rec) = true ∧
    remaining (quota_init dailyLimit today rec) = (quota_init dailyLimit today rec).daily_limit := by
  have hc : load_count today rec = 0 := by
    rcases h with h | h | ⟨d, c, h, hd⟩
    · rw [h]; rfl
    · rw [h]; rfl
    · rw [h]; simp [load_count, hd]
  have hlim : (1 : Int) ≤ max 1 dailyLimit := le_max_left _ _
  refine ⟨by simp [quota_init, hc], ?_, ?_⟩
  · simp only [can_process, quota_init, hc]
    simp only [decide_eq_true_eq]
    omega
  · simp only [remaining, quota_init, hc]
    omega

/-- Witness for C9 at a concrete stale record. -/
theorem quota_load_fail_open_witness :
    can_process (quota_init 5 "2026-10-12" (.valid "2026-10-11" 99)) = true :=
  (quota_load_fail_open 5 "2026-10-12" (.valid "2026-10-11" 99)
    (Or.inr (Or.inr ⟨"2026-10-11", 99, rfl, by decide⟩))).2.1

/-!
## Name normalization and candidate generation —
`AccurateEmailFinder._normalize_name` / `_build_candidates`
(`src/research/accurate_email_finder.py`) and the inline candidate build of
`EmailFinder.find_email` (`src/research/email_finder.py`).
-/

/-- `AccurateEmailFinder._normalize_name`: collapse whitespace, split into
words, lowercase-and-strip the first and last words to `a`-`z`. -/
def normalize_name (fullName : String) : String × String :=
  match wordRuns (fun c => ¬ pyIsSpace c) fullName.data with
  | [] => ("", "")
  | [p] => (⟨normTokL p⟩, "")
  | p :: q :: qs => (⟨normTokL p⟩, ⟨normTokL (lastD (q :: qs) q)⟩)

/-- The chained `pattern.replace("{first}", first).replace("{last}", last)
.replace("{f}", f).replace("{l}", l).replace("{domain}", domain)` common to
both candidate builders. -/
def substPattern (p first last f l domain : String) : String :=
  pyReplace (pyReplace (pyReplace (pyReplace (pyReplace p "{first}" first)
    "{last}" last) "{f}" f) "{l}" l) "{domain}" domain

/-- One step of `AccurateEmailFinder._build_candidates`'s loop:
`if email and email not in candidates: candidates.append(email)`. -/
def buildStepAcc (first last f l domain : String) (acc : List String) (p : String) : List String :=
  let email := substPattern p first last f l domain
  if email ≠ "" ∧ email ∉ acc then acc ++ [email] else acc

/-- `AccurateEmailFinder._build_candidates`. -/
def build_candidates (patterns : List String) (first last domain : String) : List String :=
  let cands := patterns.foldl (buildStepAcc first last (take1 first) (take1 last) domain) []
  if cands = [] ∧ first ≠ "" ∧ domain ≠ "" then [first ++ "@" ++ domain] else cands

/-- One step of the candidate loop inside `EmailFinder.find_email`
(no emptiness check there): `if email not in candidates: candidates.append(email)`. -/
def buildStepBasic (first last f l domain : String) (acc : List String) (p : String) : List String :=
  let email := substPattern p first last f l domain
  if email ∉ acc then acc ++ [email] else acc

/-- The candidate list built inline by `EmailFinder.find_email` (before the
`best_guess` insertion). -/
def build_candidates_basic (patterns : List String) (first last domain : String) : List String :=
  patterns.foldl (buildStepBasic first last (take1 first) (take1 last) domain) []

/-!
### Structural lemmas about the `str.replace` model
-/

theorem replaceFuel_nil (pat rep : List Char) (fuel : Nat) :
    replaceFuel pat rep fuel [] = [] := by
  cases fuel <;> rfl

theorem replaceFuel_congr (pat rep : List Char) :
    ∀ (f1 f2 : Nat) (l : List Char), l.length ≤ f1 → l.length ≤ f2 →
      replaceFuel pat rep f1 l = replaceFuel pat rep f2 l := by
  intro f1
  induction f1 with
  | zero =>
    intro f2 l h1 _
    have : l = [] := List.eq_nil_of_length_eq_zero (Nat.le_zero.mp h1)
    subst this
    rw [replaceFuel_nil, replaceFuel_nil]
  | succ k ih =>
    intro f2 l h1 h2
    cases l with
    | nil => rw [replaceFuel_nil, replaceFuel_nil]
    | cons c cs =>
      cases f2 with
      | zero => simp at h2
      | succ m =>
        simp only [replaceFuel]
        by_cases hcond : isPrefixOfL pat (c :: cs) = true ∧ pat ≠ []
        · rw [if_pos hcond, if_pos hcond]
          have hlen : pat.length ≥ 1 := by
            cases pat with
            | nil => exact absurd rfl hcond.2
            | cons _ _ => simp
          have hd : ((c :: cs).drop pat.length).length ≤ cs.length := by
            rw [List.length_drop]
            simp only [List.length_cons]
            omega
          have h1' : cs.length ≤ k := by simpa using h1
          have h2' : cs.length ≤ m := by simpa using h2
          exact congrArg (rep ++ ·) (ih _ _ (le_trans hd h1') (le_trans hd h2'))
        · rw [if_neg hcond, if_neg hcond]
          have h1' : cs.length ≤ k := by simpa using h1
          have h2' : cs.length ≤ m := by simpa using h2
          exact congrArg (c :: ·) (ih _ _ h1' h2')

theorem replaceL_cons_neg (pat rep : List Char) (c : Char) (cs : List Char)
    (h : isPrefixOfL pat (c :: cs) = false) :
    replaceL pat rep (c :: cs) = c :: replaceL pat rep cs := by
  show replaceFuel pat rep (c :: cs).length (c :: cs) = c :: replaceFuel pat rep cs.length cs
  simp only [List.length_cons, replaceFuel]
  rw [if_neg]
  simp [h]

theorem replaceL_match (pat rep l : List Char) (hp : isPrefixOfL pat l = true)
    (hne : pat ≠ []) :
    replaceL pat rep l = rep ++ replaceL pat rep (l.drop pat.length) := by
  cases l with
  | nil =>
    cases pat with
    | nil => exact absurd rfl hne
    | cons p ps => simp [isPrefixOfL] at hp
  | cons c cs =>
    show replaceFuel pat rep (c :: cs).length (c :: cs) = _
    simp only [List.length_cons, replaceFuel]
    rw [if_pos ⟨hp, hne⟩]
    have hlen : pat.length ≥ 1 := by
      cases pat with
      | nil => exact absurd rfl hne
      | cons _ _ => simp
    have hd : ((c :: cs).drop pat.length).length ≤ cs.length := by
      rw [List.length_drop]
      simp only [List.length_cons]
      omega
    exact congrArg (rep ++ ·)
      (replaceFuel_congr pat rep cs.length ((c :: cs).drop pat.length).length _ hd le_rfl)

theorem replaceL_skip (b : Char) (pat' rep : List Char) :
    ∀ (lz rest : List Char), (∀ c ∈ lz, c ≠ b) →
      replaceL (b :: pat') rep (lz ++ rest) = lz ++ replaceL (b :: pat') rep rest := by
  intro lz
  induction lz with
  | nil => intro rest _; rfl
  | cons c cz ih =>
    intro rest h
    have hc : c ≠ b := h c (List.mem_cons_self c cz)
    have hbeq : (b == c) = false := beq_eq_false_iff_ne.mpr (fun hb => hc hb.symm)
    have hpre : isPrefixOfL (b :: pat') (c :: (cz ++ rest)) = false := by
      simp [isPrefixOfL, hbeq]
    rw [List.cons_append, replaceL_cons_neg _ _ _ _ hpre,
      ih rest (fun x hx => h x (List.mem_cons_of_mem c hx)), List.cons_append]

theorem replaceFuel_ne_nil (pat rep : List Char) (fuel : Nat) (l : List Char)
    (hl : l ≠ []) (hrep : rep ≠ []) : replaceFuel pat rep fuel l ≠ [] := by
  cases fuel with
  | zero =>
    cases l with
    | nil => exact absurd rfl hl
    | cons c cs => simp [replaceFuel]
  | succ k =>
    cases l with
    | nil => exact absurd rfl hl
    | cons c cs =>
      simp only [replaceFuel]
      by_cases hcond : isPrefixOfL pat (c :: cs) = true ∧ pat ≠ []
      · rw [if_pos hcond]
        simp [hrep]
      · rw [if_neg hcond]
        simp

theorem replaceL_ne_nil (pat rep l : List Char) (hl : l ≠ []) (hrep : rep ≠ []) :
    replaceL pat rep l ≠ [] :=
  replaceFuel_ne_nil pat rep l.length l hl hrep

/-- `(s ++ t).data = s.data ++ t.data`. -/
theorem data_append (s t : String) : (s ++ t).data = s.data ++ t.data := by
  cases s; cases t; rfl

/-- `s ≠ "" ↔ s.data ≠ []`. -/
theorem ne_empty_iff_data (s : String) : s ≠ "" ↔ s.data ≠ [] := by
  constructor
  · intro h hd
    exact h (by cases s; simp_all)
  · intro h hs
    exact h (by rw [hs])

/-- Modelled from the spec: the concrete template list `config/email_patterns.yaml`
is configuration of this repository that is not under `src/`.  Per §4.3 the
templates reference the `{first}`, `{last}`, `{f}`, `{l}`, `{domain}`
placeholders, and per §8 (end-to-end scenario 1) the first configured pattern
is `{first}.{last}@{domain}`. -/
def specPatterns : List String :=
  ["{first}.{last}@{domain}", "{first}@{domain}", "{f}{last}@{domain}"]

/-- The character `}`. -/
def rbrace : Char := Char.ofNat 125

theorem str_ext {s t : String} (h : s.data = t.data) : s = t := by
  cases s; cases t; exact congrArg String.mk (by simpa using h)

theorem replaceL_domain_self (d : List Char) :
    replaceL "{domain}".data d "{domain}".data = d := by
  show d ++ ([] : List Char) = d
  exact List.append_nil d

theorem az_ne_lbrace {c : Char} (h : isAz c = true) : c ≠ lbrace := by
  intro he
  rw [he] at h
  exact absurd h (by decide)

theorem replaceL_skip' (pat rep lz rest : List Char) (b : Char)
    (hb : pat.head? = some b) (h : ∀ c ∈ lz, c ≠ b) :
    replaceL pat rep (lz ++ rest) = lz ++ replaceL pat rep rest := by
  cases pat with
  | nil => simp at hb
  | cons p ps =>
    have : p = b := by simpa using hb
    subst this
    exact replaceL_skip p ps rep lz rest h

theorem replaceL_skip_concrete (pat rep lz rest rest' : List Char) (b : Char)
    (hb : pat.head? = some b) (h : ∀ c ∈ lz, c ≠ b)
    (hrest : replaceL pat rep rest = rest') :
    replaceL pat rep (lz ++ rest) = lz ++ rest' := by
  rw [replaceL_skip' pat rep lz rest b hb h, hrest]

/-!
### Structure of the candidate-builder folds

Both candidate loops only ever append one fresh element (or nothing) per
pattern; the four lemmas below capture the consequences used by the claims.
-/

theorem foldl_step_ne_nil {g : String → String} {step : List String → String → List String}
    (hstep : ∀ acc p, step acc p = acc ∨ (g p ∉ acc ∧ step acc p = acc ++ [g p])) :
    ∀ (ps : List String) (acc : List String), acc ≠ [] → ps.foldl step acc ≠ [] := by
  intro ps
  induction ps with
  | nil => intro acc h; exact h
  | cons p ps ih =>
    intro acc h
    apply ih
    rcases hstep acc p with h' | ⟨_, h'⟩
    · rw [h']; exact h
    · rw [h']; simp

theorem foldl_step_head {g : String → String} {step : List String → String → List String}
    (hstep : ∀ acc p, step acc p = acc ∨ (g p ∉ acc ∧ step acc p = acc ++ [g p])) :
    ∀ (ps : List String) (acc : List String), acc ≠ [] →
      (ps.foldl step acc).head? = acc.head? := by
  intro ps
  induction ps with
  | nil => intro acc _; rfl
  | cons p ps ih =>
    intro acc h
    have hne : step acc p ≠ [] := by
      rcases hstep acc p with h' | ⟨_, h'⟩
      · rw [h']; exact h
      · rw [h']; simp
    rw [List.foldl_cons, ih (step acc p) hne]
    rcases hstep acc p with h' | ⟨_, h'⟩
    · rw [h']
    · rw [h']
      cases acc with
      | nil => exact absurd rfl h
      | cons a as => simp

theorem foldl_step_nodup {g : String → String} {step : List String → String → List String}
    (hstep : ∀ acc p, step acc p = acc ∨ (g p ∉ acc ∧ step acc p = acc ++ [g p])) :
    ∀ (ps : List String) (acc : List String), acc.Nodup → (ps.foldl step acc).Nodup := by
  intro ps
  induction ps with
  | nil => intro acc h; exact h
  | cons p ps ih =>
    intro acc h
    apply ih
    rcases hstep acc p with h' | ⟨hnotin, h'⟩
    · rw [h']; exact h
    · rw [h']
      rw [List.nodup_append]
      refine ⟨h, List.nodup_singleton _, ?_⟩
      intro x hx hx'
      rw [List.mem_singleton] at hx'
      subst hx'
      exact hnotin hx

theorem foldl_step_mem {g : String → String} {step : List String → String → List String}
    (hstep : ∀ acc p, step acc p = acc ∨ (g p ∉ acc ∧ step acc p = acc ++ [g p])) :
    ∀ (ps : List String) (acc : List String) (e : String), e ∈ ps.foldl step acc →
      e ∈ acc ∨ ∃ p ∈ ps, e = g p := by
  intro ps
  induction ps with
  | nil => intro acc e h; exact Or.inl h
  | cons p ps ih =>
    intro acc e h
    rcases ih (step acc p) e h with h' | ⟨p', hp', he⟩
    · rcases hstep acc p with hs | ⟨_, hs⟩
      · rw [hs] at h'; exact Or.inl h'
      · rw [hs] at h'
        rcases List.mem_append.mp h' with h'' | h''
        · exact Or.inl h''
        · rw [List.mem_singleton] at h''
          exact Or.inr ⟨p, List.mem_cons_self p ps, h''⟩
    · exact Or.inr ⟨p', List.mem_cons_of_mem p hp', he⟩

theorem buildStepAcc_char (first last f l domain : String) :
    ∀ acc p, buildStepAcc first last f l domain acc p = acc ∨
      (substPattern p first last f l domain ∉ acc ∧
       buildStepAcc first last f l domain acc p
         = acc ++ [substPattern p first last f l domain]) := by
  intro acc p
  simp only [buildStepAcc]
  split
  · next h => exact Or.inr ⟨h.2, rfl⟩
  · exact Or.inl rfl

theorem buildStepBasic_char (first last f l domain : String) :
    ∀ acc p, buildStepBasic first last f l domain acc p = acc ∨
      (substPattern p first last f l domain ∉ acc ∧
       buildStepBasic first last f l domain acc p
         = acc ++ [substPattern p first last f l domain]) := by
  intro acc p
  simp only [buildStepBasic]
  split
  · next h => exact Or.inr ⟨h, rfl⟩
  · exact Or.inl rfl

theorem build_candidates_nodup (patterns : List String) (first last domain : String) :
    (build_candidates patterns first last domain).Nodup := by
  simp only [build_candidates]
  split
  · exact List.nodup_singleton _
  · exact foldl_step_nodup (buildStepAcc_char first last (take1 first) (take1 last) domain)
      patterns [] List.nodup_nil

theorem build_candidates_mem (patterns : List String) (first last domain e : String)
    (h : e ∈ build_candidates patterns first last domain) :
    e = first ++ "@" ++ domain ∨
      ∃ p ∈ patterns, e = substPattern p first last (take1 first) (take1 last) domain := by
  simp only [build_candidates] at h
  split at h
  · rw [List.mem_singleton] at h
    exact Or.inl h
  · rcases foldl_step_mem (buildStepAcc_char first last (take1 first) (take1 last) domain)
      patterns [] e h with h' | h'
    · simp at h'
    · exact Or.inr h'

theorem take1_az (s : String) (h : ∀ c ∈ s.data, isAz c = true) :
    ∀ c ∈ (take1 s).data, isAz c = true := by
  intro c hc
  exact h c (List.mem_of_mem_take hc)

theorem normalize_name_az (s : String) :
    (∀ c ∈ (normalize_name s).1.data, isAz c = true) ∧
    (∀ c ∈ (normalize_name s).2.data, isAz c = true) := by
  cases hw : wordRuns (fun c => ¬ pyIsSpace c) s.data with
  | nil =>
    simp only [normalize_name, hw]
    exact ⟨by intro c hc; simp at hc, by intro c hc; simp at hc⟩
  | cons p ps =>
    cases ps with
    | nil =>
      simp only [normalize_name, hw]
      exact ⟨normTokL_az p, by intro c hc; simp at hc⟩
    | cons q qs =>
      simp only [normalize_name, hw]
      exact ⟨normTokL_az p, normTokL_az (lastD (q :: qs) q)⟩

/-- Substituting into the template `{first}.{last}@{domain}` with
lowercase-alphabetic name parts yields `first ++ "." ++ last ++ "@" ++ domain`. -/
theorem subst_p1 (first last f l domain : String)
    (hF : ∀ c ∈ first.data, isAz c = true) (hL : ∀ c ∈ last.data, isAz c = true) :
    substPattern "{first}.{last}@{domain}" first last f l domain
      = first ++ "." ++ last ++ "@" ++ domain := by
  have hmemF : ∀ c ∈ first.data, c ≠ lbrace := fun c hc => az_ne_lbrace (hF c hc)
  have hmem3 : ∀ c ∈ first.data ++ '.' :: (last.data ++ ['@']), c ≠ lbrace := by
    intro c hc
    simp only [List.mem_append, List.mem_cons, List.not_mem_nil, or_false] at hc
    rcases hc with h | h | h | h
    · exact az_ne_lbrace (hF c h)
    · subst h; decide
    · exact az_ne_lbrace (hL c h)
    · subst h; decide
  apply str_ext
  show replaceL "{domain}".data domain.data
      (replaceL "{l}".data l.data
        (replaceL "{f}".data f.data
          (replaceL "{last}".data last.data
            (replaceL "{first}".data first.data "{first}.{last}@{domain}".data))))
      = _
  have e1 : replaceL "{first}".data first.data "{first}.{last}@{domain}".data
      = first.data ++ ".{last}@{domain}".data := rfl
  rw [e1]
  rw [replaceL_skip_concrete "{last}".data last.data first.data ".{last}@{domain}".data
    ('.' :: (last.data ++ '@' :: "{domain}".data)) lbrace rfl hmemF rfl]
  rw [show first.data ++ '.' :: (last.data ++ '@' :: "{domain}".data)
      = (first.data ++ '.' :: (last.data ++ ['@'])) ++ "{domain}".data by simp]
  rw [replaceL_skip_concrete "{f}".data f.data _ "{domain}".data "{domain}".data
    lbrace rfl hmem3 rfl]
  rw [replaceL_skip_concrete "{l}".data l.data _ "{domain}".data "{domain}".data
    lbrace rfl hmem3 rfl]
  rw [replaceL_skip_concrete "{domain}".data domain.data _ "{domain}".data domain.data
    lbrace rfl hmem3 (replaceL_domain_self domain.data)]
  simp [data_append, show ("." : String).data = ['.'] from rfl,
    show ("@" : String).data = ['@'] from rfl]

/-- Substituting into the template `{first}@{domain}` with a
lowercase-alphabetic first name yields `first ++ "@" ++ domain`. -/
theorem subst_p2 (first last f l domain : String)
    (hF : ∀ c ∈ first.data, isAz c = true) :
    substPattern "{first}@{domain}" first last f l domain
      = first ++ "@" ++ domain := by
  have hmemF : ∀ c ∈ first.data, c ≠ lbrace := fun c hc => az_ne_lbrace (hF c hc)
  have hmemA : ∀ c ∈ first.data ++ ['@'], c ≠ lbrace := by
    intro c hc
    simp only [List.mem_append, List.mem_cons, List.not_mem_nil, or_false] at hc
    rcases hc with h | h
    · exact az_ne_lbrace (hF c h)
    · subst h; decide
  apply str_ext
  show replaceL "{domain}".data domain.data
      (replaceL "{l}".data l.data
        (replaceL "{f}".data f.data
          (replaceL "{last}".data last.data
            (replaceL "{first}".data first.data "{first}@{domain}".data))))
      = _
  have e1 : replaceL "{first}".data first.data "{first}@{domain}".data
      = first.data ++ '@' :: "{domain}".data := rfl
  rw [e1]
  rw [replaceL_skip_concrete "{last}".data last.data first.data ('@' :: "{domain}".data)
    ('@' :: "{domain}".data) lbrace rfl hmemF rfl]
  rw [replaceL_skip_concrete "{f}".data f.data first.data ('@' :: "{domain}".data)
    ('@' :: "{domain}".data) lbrace rfl hmemF rfl]
  rw [replaceL_skip_concrete "{l}".data l.data first.data ('@' :: "{domain}".data)
    ('@' :: "{domain}".data) lbrace rfl hmemF rfl]
  rw [show first.data ++ '@' :: "{domain}".data
      = (first.data ++ ['@']) ++ "{domain}".data by simp]
  rw [replaceL_skip_concrete "{domain}".data domain.data _ "{domain}".data domain.data
    lbrace rfl hmemA (replaceL_domain_self domain.data)]
  simp [data_append, show ("@" : String).data = ['@'] from rfl]

/-- Substituting into the template `{f}{last}@{domain}` with
lowercase-alphabetic name parts yields `f ++ last ++ "@" ++ domain`. -/
theorem subst_p3 (first last f l domain : String)
    (hf : ∀ c ∈ f.data, isAz c = true) (hL : ∀ c ∈ last.data, isAz c = true) :
    substPattern "{f}{last}@{domain}" first last f l domain
      = f ++ last ++ "@" ++ domain := by
  have hmemfL : ∀ c ∈ f.data ++ last.data, c ≠ lbrace := by
    intro c hc
    rcases List.mem_append.mp hc with h | h
    · exact az_ne_lbrace (hf c h)
    · exact az_ne_lbrace (hL c h)
  have hmemfLA : ∀ c ∈ f.data ++ (last.data ++ ['@']), c ≠ lbrace := by
    intro c hc
    simp only [List.mem_append, List.mem_cons, List.not_mem_nil, or_false] at hc
    rcases hc with h | h | h
    · exact az_ne_lbrace (hf c h)
    · exact az_ne_lbrace (hL c h)
    · subst h; decide
  apply str_ext
  show replaceL "{domain}".data domain.data
      (replaceL "{l}".data l.data
        (replaceL "{f}".data f.data
          (replaceL "{last}".data last.data
            (replaceL "{first}".data first.data "{f}{last}@{domain}".data))))
      = _
  have e1 : replaceL "{first}".data first.data "{f}{last}@{domain}".data
      = "{f}{last}@{domain}".data := rfl
  rw [e1]
  have e2 : replaceL "{last}".data last.data "{f}{last}@{domain}".data
      = lbrace :: 'f' :: rbrace :: (last.data ++ '@' :: "{domain}".data) := rfl
  rw [e2]
  have hpre : isPrefixOfL "{f}".data
      (lbrace :: 'f' :: rbrace :: (last.data ++ '@' :: "{domain}".data)) = true := rfl
  rw [replaceL_match "{f}".data f.data _ hpre (by decide)]
  rw [show (lbrace :: 'f' :: rbrace :: (last.data ++ '@' :: "{domain}".data)).drop
        ("{f}".data.length) = last.data ++ '@' :: "{domain}".data from rfl]
  rw [replaceL_skip_concrete "{f}".data f.data last.data ('@' :: "{domain}".data)
    ('@' :: "{domain}".data) lbrace rfl
    (fun c hc => az_ne_lbrace (hL c hc)) rfl]
  rw [show f.data ++ (last.data ++ '@' :: "{domain}".data)
      = (f.data ++ (last.data ++ ['@'])) ++ "{domain}".data by simp]
  rw [replaceL_skip_concrete "{l}".data l.data _ "{domain}".data "{domain}".data
    lbrace rfl hmemfLA rfl]
  rw [replaceL_skip_concrete "{domain}".data domain.data _ "{domain}".data domain.data
    lbrace rfl hmemfLA (replaceL_domain_self domain.data)]
  simp [data_append, show ("@" : String).data = ['@'] from rfl]

/-- `(x ++ "@" ++ domain).data` splits at the `@`. -/
theorem data_concat_at (x domain : String) :
    (x ++ "@" ++ domain).data = x.data ++ '@' :: domain.data := by
  rw [data_append, data_append]
  simp [show ("@" : String).data = ['@'] from rfl]

theorem build_candidates_ne_nil (patterns : List String) (first last domain : String)
    (hF : first ≠ "") (hD : domain ≠ "") :
    build_candidates patterns first last domain ≠ [] := by
  simp only [build_candidates]
  split
  · simp
  · next h =>
    intro hc
    exact h ⟨hc, hF, hD⟩

/-- With the spec-modelled pattern list, the first generated candidate is
`first ++ "." ++ last ++ "@" ++ domain` and the candidate list is nonempty. -/
theorem build_candidates_spec_head (first last domain : String)
    (hF : ∀ c ∈ first.data, isAz c = true) (hL : ∀ c ∈ last.data, isAz c = true) :
    build_candidates specPatterns first last domain ≠ [] ∧
    (build_candidates specPatterns first last domain).head?
      = some (first ++ "." ++ last ++ "@" ++ domain) := by
  have hchar := buildStepAcc_char first last (take1 first) (take1 last) domain
  have he1 : (first ++ "." ++ last ++ "@" ++ domain) ≠ "" := by
    rw [ne_empty_iff_data]
    simp [data_append, show ("." : String).data = ['.'] from rfl,
      show ("@" : String).data = ['@'] from rfl]
  have hsub1 := subst_p1 first last (take1 first) (take1 last) domain hF hL
  have hstep1 : buildStepAcc first last (take1 first) (take1 last) domain []
      "{first}.{last}@{domain}" = [first ++ "." ++ last ++ "@" ++ domain] := by
    simp only [buildStepAcc, hsub1]
    rw [if_pos ⟨he1, by simp⟩]
    simp
  have hfold : List.foldl (buildStepAcc first last (take1 first) (take1 last) domain)
        [] specPatterns
      = List.foldl (buildStepAcc first last (take1 first) (take1 last) domain)
        [first ++ "." ++ last ++ "@" ++ domain] ["{first}@{domain}", "{f}{last}@{domain}"] := by
    simp only [specPatterns, List.foldl_cons, hstep1]
  have hne2 : List.foldl (buildStepAcc first last (take1 first) (take1 last) domain)
      [first ++ "." ++ last ++ "@" ++ domain] ["{first}@{domain}", "{f}{last}@{domain}"] ≠ [] :=
    foldl_step_ne_nil hchar _ _ (by simp)
  have hh : (List.foldl (buildStepAcc first last (take1 first) (take1 last) domain)
      [first ++ "." ++ last ++ "@" ++ domain]
      ["{first}@{domain}", "{f}{last}@{domain}"]).head?
      = some (first ++ "." ++ last ++ "@" ++ domain) := by
    rw [foldl_step_head hchar _ _ (by simp)]
    rfl
  have hcand : build_candidates specPatterns first last domain
      = List.foldl (buildStepAcc first last (take1 first) (take1 last) domain)
        [first ++ "." ++ last ++ "@" ++ domain] ["{first}@{domain}", "{f}{last}@{domain}"] := by
    simp only [build_candidates]
    rw [hfold, if_neg]
    intro hand
    exact hne2 hand.1
  rw [hcand]
  exact ⟨hne2, hh⟩

/-- Claim C5 (amended): with the spec-modelled templates, `_build_candidates`
on a normalized nonempty first name, normalized last name, and nonempty domain
returns a nonempty duplicate-free list in which every entry is
`local-part ++ "@" ++ domain`, the local part consisting of lowercase letters
and the template separator dot (not of lowercase letters alone, which the
original claim asserted). -/
theorem build_candidates_shape (first last domain : String)
    (hF : ∀ c ∈ first.data, isAz c = true) (hL : ∀ c ∈ last.data, isAz c = true)
    (hf : first ≠ "") (hd : domain ≠ "") :
    build_candidates specPatterns first last domain ≠ [] ∧
    (build_candidates specPatterns first last domain).Nodup ∧
    ∀ e ∈ build_candidates specPatterns first last domain,
      ∃ lp : List Char, e.data = lp ++ '@' :: domain.data ∧
        ∀ c ∈ lp, isAz c = true ∨ c = '.' := by
  refine ⟨build_candidates_ne_nil specPatterns first last domain hf hd,
    build_candidates_nodup specPatterns first last domain, ?_⟩
  intro e he
  rcases build_candidates_mem specPatterns first last domain e he with h | ⟨p, hp, h⟩
  · refine ⟨first.data, ?_, fun c hc => Or.inl (hF c hc)⟩
    rw [h, data_concat_at]
  · have hp3 : p = "{first}.{last}@{domain}" ∨ p = "{first}@{domain}" ∨
        p = "{f}{last}@{domain}" := by simpa [specPatterns] using hp
    rcases hp3 with hp' | hp' | hp'
    · subst hp'
      rw [subst_p1 first last (take1 first) (take1 last) domain hF hL] at h
      refine ⟨((first ++ ".") ++ last).data, ?_, ?_⟩
      · rw [h, data_concat_at]
      · intro c hc
        rw [data_append, data_append] at hc
        simp only [List.mem_append, show ("." : String).data = ['.'] from rfl,
          List.mem_cons, List.not_mem_nil, or_false] at hc
        rcases hc with (hc | hc) | hc
        · exact Or.inl (hF c hc)
        · exact Or.inr hc
        · exact Or.inl (hL c hc)
    · subst hp'
      rw [subst_p2 first last (take1 first) (take1 last) domain hF] at h
      refine ⟨first.data, ?_, fun c hc => Or.inl (hF c hc)⟩
      rw [h, data_concat_at]
    · subst hp'
      rw [subst_p3 first last (take1 first) (take1 last) domain
        (take1_az first hF) hL] at h
      refine ⟨(take1 first ++ last).data, ?_, ?_⟩
      · rw [h, data_concat_at]
      · intro c hc
        rw [data_append] at hc
        rcases List.mem_append.mp hc with hc | hc
        · exact Or.inl (take1_az first hF c hc)
        · exact Or.inl (hL c hc)

/-- Witness for the amended C5 at a concrete input. -/
theorem build_candidates_shape_witness :
    (build_candidates specPatterns "jane" "doe" "example.com").Nodup :=
  (build_candidates_shape "jane" "doe" "example.com"
    (by decide) (by decide) (by decide) (by decide)).2.1

/-- Claim C5 counterexample: `_build_candidates` generates
`jane.doe@example.com`, whose local part `jane.doe` is not lowercase
alphabetic only (it contains a dot), refuting the claim as stated. -/
theorem build_candidates_local_not_alpha :
    "jane.doe@example.com" ∈ build_candidates specPatterns "jane" "doe" "example.com" ∧
    ¬ (∀ c ∈ localPartL "jane.doe@example.com", isAz c = true) := by
  constructor
  · decide
  · decide

/-!
## Evidence collectors and resolution —
`src/research/email_finder.py` and `src/research/accurate_email_finder.py`

The network-facing internals (HTTP fetches, DNS, SMTP dialogue, JSON parsing
of GitHub responses) are modelled as oracles bundled in `ResearchEnv`: each
field is the observable outcome of one collector primitive for the single
(person, domain) resolution under consideration.  Every collector swallows its
own failures in the source, so a failing collector is the corresponding
"empty"/`false` oracle value.
-/

/-- Environment of one resolution call. -/
structure ResearchEnv where
  /-- `EmailFinder.scrape_website_emails(domain)`: the (cached) list of
  filtered public emails scraped from the company website. -/
  websiteEmails : List String
  /-- Whether the quoted DuckDuckGo search for a literal candidate email finds
  it in the result text (`_search_web_candidate_mentions` per candidate). -/
  mentionFound : String → Bool
  /-- The lowercased domain-matching emails extracted by
  `_search_web_contextual`. -/
  contextualHits : List String
  /-- MX hosts of the domain (`_get_mx`), empty when the lookup fails. -/
  mxHosts : List String
  /-- Whether port 25 of the first MX host is reachable (`_can_connect_smtp`). -/
  canConnect : Bool
  /-- `_smtp_verify(email, mx_host)`: whether `RCPT TO` answers 250. -/
  smtpAccept : String → Bool
  /-- Outcome of the GitHub probe `_github_email` in `EmailFinder`. -/
  githubEmail : String
  /-- `research.smtp_verify_enabled` from the settings. -/
  smtpEnabled : Bool
  /-- `research.accurate_web_queries_per_contact` from the settings. -/
  maxWebQueries : Nat

/-- Loop body of `AccurateEmailFinder._match_known_email` over the scraped
emails (three containment checks plus the `local == first` check). -/
def matchKnownGo (first last : String) : List String → String
  | [] => ""
  | e :: es =>
    let loc := (localPartL e).map Char.toLower
    if (last ≠ "" ∧ (isInfixL (first.data ++ '.' :: last.data) loc
          ∨ isInfixL (first.data ++ last.data) loc
          ∨ isInfixL (first.data.take 1 ++ last.data) loc))
        ∨ loc = first.data
    then e else matchKnownGo first last es

/-- `AccurateEmailFinder._match_known_email`. -/
def match_known_email (first last : String) (emails : List String) : String :=
  if first = "" then "" else matchKnownGo first last emails

/-- Loop body of `EmailFinder._match_website_email` (four containment checks,
including the `f.last` style, plus the `local == first` check). -/
def matchWebsiteGo (first last : String) : List String → String
  | [] => ""
  | e :: es =>
    let loc := (localPartL e).map Char.toLower
    if (first ≠ "" ∧ last ≠ "" ∧ (isInfixL (first.data ++ '.' :: last.data) loc
          ∨ isInfixL (first.data ++ last.data) loc
          ∨ isInfixL (first.data.take 1 ++ last.data) loc
          ∨ isInfixL (first.data.take 1 ++ '.' :: last.data) loc))
        ∨ (first ≠ "" ∧ loc = first.data)
    then e else matchWebsiteGo first last es

/-- `EmailFinder._match_website_email` applied to the scraped email list. -/
def match_website_email (first last : String) (websiteEmails : List String) : String :=
  matchWebsiteGo first last websiteEmails

/-- The `RCPT TO` loop at the end of `EmailFinder._try_smtp_verification`:
first accepted candidate wins (the inter-probe sleep has no observable
effect in the model). -/
def smtpFirstAccepted (accept : String → Bool) : List String → String
  | [] => ""
  | c :: cs => if accept c then c else smtpFirstAccepted accept cs

/-- `EmailFinder._try_smtp_verification`: skip when there are no MX hosts or
port 25 is unreachable; skip (returning `""`) when `_detect_catchall` — an
SMTP probe of the fabricated address — is accepted; otherwise return the
first accepted candidate. -/
def try_smtp_verification (env : ResearchEnv) (candidates : List String) (domain : String) : String :=
  if env.mxHosts = [] then ""
  else if env.canConnect = false then ""
  else if env.smtpAccept ("definitely_not_a_real_user_1234567@" ++ domain) then ""
  else smtpFirstAccepted env.smtpAccept candidates

/-- The result dictionary shared by both finders. -/
structure EmailResult where
  email : String
  confidence : String
  all_candidates : List String
  method : String
deriving DecidableEq

/-- `best_guess = candidates[0] if candidates else f"{first}.{last}@{domain}"`
inside `EmailFinder.find_email`. -/
def best_guess (patterns : List String) (first last domain : String) : String :=
  match build_candidates_basic patterns first last domain with
  | [] => first ++ "." ++ last ++ "@" ++ domain
  | c :: _ => c

/-- The candidate list of `EmailFinder.find_email` after the
`if best_guess not in candidates: candidates.insert(0, best_guess)` step. -/
def basic_all_candidates (patterns : List String) (first last domain : String) : List String :=
  let cands := build_candidates_basic patterns first last domain
  if best_guess patterns first last domain ∈ cands then cands
  else best_guess patterns first last domain :: cands

/-- The SMTP-verified email of `EmailFinder.find_email` strategy 2 (empty when
`smtp_verify_enabled` is off). -/
def basic_smtp (patterns : List String) (env : ResearchEnv) (first last domain : String) : String :=
  if env.smtpEnabled then
    try_smtp_verification env (basic_all_candidates patterns first last domain) domain
  else ""

/-- `EmailFinder.find_email`: normalize, bail out on empty inputs, then
website scrape, SMTP verification, GitHub probe, and the best-guess fallback,
in that order. -/
def find_email (patterns : List String) (env : ResearchEnv)
    (firstName lastName domain : String) : EmailResult :=
  let first := normTok firstName
  let last := normTok lastName
  if first = "" ∨ last = "" ∨ domain = "" then
    ⟨"", "low", [], ""⟩
  else
    let candidates := basic_all_candidates patterns first last domain
    let websiteEmail := match_website_email first last env.websiteEmails
    if websiteEmail ≠ "" then
      ⟨websiteEmail, "high", candidates, "website_scrape"⟩
    else
      let smtpV := basic_smtp patterns env first last domain
      if smtpV ≠ "" then
        ⟨smtpV, "high", candidates, "smtp_verified"⟩
      else if env.githubEmail ≠ "" then
        ⟨env.githubEmail, "medium", candidates ++ [env.githubEmail], "github"⟩
      else
        ⟨best_guess patterns first last domain, "low", candidates, "pattern_guess"⟩

/-- The generic aliases penalized in `find_best_email`
(`{"admin", "contact", "careers", "jobs", "hr"}`). -/
def genericPenaltyAliases : List String := ["admin", "contact", "careers", "jobs", "hr"]

/-- The accumulated score of one candidate `c` in `find_best_email`'s
`scores` map, written as the sum of the additions whose key equals `c`:
the `+8` default prior on the first candidate, the `+90` website match, the
`+75` direct web mention, the `+55` contextual match, the `+65` SMTP bonus
(the guards `if email in scores or email in candidates` are always true for a
candidate), and the `-8`/`-30` penalties. -/
def score_of (hd websiteMatch : String) (mentionHits contextualHits : List String)
    (smtpV : String) (c : String) : Int :=
  (if c = hd then 8 else 0)
  + (if websiteMatch ≠ "" ∧ c = websiteMatch then 90 else 0)
  + (if c ∈ mentionHits then 75 else 0)
  + (if c ∈ contextualHits then 55 else 0)
  + (if smtpV ≠ "" ∧ c = smtpV then 65 else 0)
  + (if (localPartL c).length ≤ 2 then -8 else 0)
  + (if (⟨localPartL c⟩ : String) ∈ genericPenaltyAliases then -30 else 0)

/-- `max(candidates, key=lambda c: scores[c])`: Python's `max` keeps the
earliest element on ties (it replaces the running best only on a strictly
greater key). -/
def pickBest (score : String → Int) (hd : String) (rest : List String) : String :=
  rest.foldl (fun b c => if score c > score b then c else b) hd

/-- `AccurateEmailFinder._score_to_confidence`. -/
def score_to_confidence (score : Int) : String :=
  if score ≥ 85 then "high"
  else if score ≥ 55 then "medium"
  else "low"

/-- `AccurateEmailFinder._pick_method`, expressed through the conditions under
which each reason tag is attached to the winning candidate: the winner carries
`website_exact_or_pattern_match` iff it equals the nonempty website match,
`smtp_verified` iff it equals the nonempty SMTP-verified candidate,
`direct_web_mention` iff it is in the mention-hit set, and
`name_domain_context_match` iff it is in the contextual-hit set. -/
def pick_method (best websiteMatch : String) (mentionHits contextualHits : List String)
    (smtpV : String) : String :=
  if websiteMatch ≠ "" ∧ best = websiteMatch then "website_scrape"
  else if smtpV ≠ "" ∧ best = smtpV then "smtp_verified"
  else if best ∈ mentionHits then "web_mention"
  else if best ∈ contextualHits then "context_match"
  else "pattern_guess"

/-- `AccurateEmailFinder.find_best_email`.  Returns the result together with
the quota state after the call. -/
def find_best_email (patterns : List String) (env : ResearchEnv) (q : QuotaState)
    (fullName domain : String) : EmailResult × QuotaState :=
  let first := (normalize_name fullName).1
  if first = "" then (⟨"", "low", [], ""⟩, q)
  else
    let last0 := (normalize_name fullName).2
    let last := if last0 = "" then first else last0
    match build_candidates patterns first last domain with
    | [] => (⟨"", "low", [], ""⟩, q)
    | hd :: rest =>
      if can_process q = false then
        let fb := find_email patterns env first last domain
        ({ fb with method := fb.method ++ "+quota_fallback" }, q)
      else
        let websiteMatch := match_known_email first last env.websiteEmails
        let mentionHits := ((hd :: rest).take env.maxWebQueries).filter env.mentionFound
        let smtpV := try_smtp_verification env (hd :: rest) domain
        let score := score_of hd websiteMatch mentionHits env.contextualHits smtpV
        let best := pickBest score hd rest
        (⟨best, score_to_confidence (score best), hd :: rest,
          pick_method best websiteMatch mentionHits env.contextualHits smtpV⟩,
         increment q 1)

/-- A fully failing environment: every collector yields nothing. -/
def envNone : ResearchEnv :=
  { websiteEmails := []
    mentionFound := fun _ => false
    contextualHits := []
    mxHosts := []
    canConnect := false
    smtpAccept := fun _ => false
    githubEmail := ""
    smtpEnabled := true
    maxWebQueries := 4 }

/-- Boolean suffix test on char lists. -/
def endsWithL (suffix l : List Char) : Bool := isPrefixOfL suffix.reverse l.reverse

theorem isPrefixOfL_append_self : ∀ (l t : List Char), isPrefixOfL l (l ++ t) = true := by
  intro l
  induction l with
  | nil => intro t; rfl
  | cons a as ih =>
    intro t
    show (a == a && isPrefixOfL as (as ++ t)) = true
    rw [ih t, beq_self_eq_true a]
    rfl

theorem endsWithL_append (m suf : List Char) : endsWithL suf (m ++ suf) = true := by
  unfold endsWithL
  rw [List.reverse_append]
  exact isPrefixOfL_append_self _ _

/-- Claim C3: with a usable first name and a nonempty candidate list, when the
daily quota is exhausted (`count >= daily_limit`, i.e. `can_process()` false),
`find_best_email` performs no quota increment (the returned state is the input
state), delegates to the basic fallback resolver, and the returned method
string carries the `+quota_fallback` suffix. -/
theorem find_best_email_quota_fallback (patterns : List String) (env : ResearchEnv)
    (q : QuotaState) (fullName domain : String) (hd : String) (rest : List String)
    (hf : (normalize_name fullName).1 ≠ "")
    (hc : build_candidates patterns (normalize_name fullName).1
        (if (normalize_name fullName).2 = "" then (normalize_name fullName).1
         else (normalize_name fullName).2) domain = hd :: rest)
    (hq : q.daily_limit ≤ q.count) :
    find_best_email patterns env q fullName domain
      = ({ find_email patterns env (normalize_name fullName).1
            (if (normalize_name fullName).2 = "" then (normalize_name fullName).1
             else (normalize_name fullName).2) domain with
          method := (find_email patterns env (normalize_name fullName).1
            (if (normalize_name fullName).2 = "" then (normalize_name fullName).1
             else (normalize_name fullName).2) domain).method ++ "+quota_fallback" }, q)
    ∧ endsWithL "+quota_fallback".data
        (find_best_email patterns env q fullName domain).1.method.data = true := by
  have hcp : can_process q = false := by
    simp only [can_process, decide_eq_false_iff_not, not_lt]
    omega
  have hmain : find_best_email patterns env q fullName domain
      = ({ find_email patterns env (normalize_name fullName).1
            (if (normalize_name fullName).2 = "" then (normalize_name fullName).1
             else (normalize_name fullName).2) domain with
          method := (find_email patterns env (normalize_name fullName).1
            (if (normalize_name fullName).2 = "" then (normalize_name fullName).1
             else (normalize_name fullName).2) domain).method ++ "+quota_fallback" }, q) := by
    simp only [find_best_email]
    rw [if_neg hf, hc]
    simp only [hcp]
    rfl
  refine ⟨hmain, ?_⟩
  rw [hmain]
  simp only [data_append]
  exact endsWithL_append _ _

/-- Witness for C3: with the quota exhausted, the concrete call returns the
tagged fallback method. -/
theorem find_best_email_quota_fallback_witness :
    (find_best_email specPatterns envNone ⟨5, 5⟩ "Jane Doe" "example.com").1.method
      = "pattern_guess+quota_fallback" := by
  have h := find_best_email_quota_fallback specPatterns envNone ⟨5, 5⟩ "Jane Doe"
    "example.com" "jane.doe@example.com" ["jane@example.com", "jdoe@example.com"]
    (by decide) (by decide) (by decide)
  rw [h.1]
  decide

theorem pick_method_ne_smtp (best websiteMatch : String)
    (mentionHits contextualHits : List String) :
    pick_method best websiteMatch mentionHits contextualHits "" ≠ "smtp_verified" := by
  unfold pick_method
  split_ifs with h1 h2 h3 h4
  · decide
  · exact absurd rfl h2.1
  · decide
  · decide
  · decide

theorem append_quota_tag_ne_smtp (s : String) :
    s ++ "+quota_fallback" ≠ "smtp_verified" := by
  intro heq
  have h2 := congrArg String.length heq
  rw [String.length_append] at h2
  have e1 : ("+quota_fallback" : String).length = 15 := rfl
  have e2 : ("smtp_verified" : String).length = 13 := rfl
  omega

/-- Claim C6: when the fabricated catch-all probe address is accepted by the
MX host, `_try_smtp_verification` contributes no verified candidate, and
neither `find_best_email` nor `EmailFinder.find_email` can return a result
with method `smtp_verified` for that domain. -/
theorem catchall_never_smtp_verified (patterns : List String) (env : ResearchEnv)
    (q : QuotaState) (fullName firstName lastName domain : String)
    (candidates : List String)
    (hcatch : env.smtpAccept ("definitely_not_a_real_user_1234567@" ++ domain) = true) :
    try_smtp_verification env candidates domain = "" ∧
    (find_best_email patterns env q fullName domain).1.method ≠ "smtp_verified" ∧
    (find_email patterns env firstName lastName domain).method ≠ "smtp_verified" := by
  have h1 : ∀ cands : List String, try_smtp_verification env cands domain = "" := by
    intro cands
    simp [try_smtp_verification, hcatch]
  have hbasic : (find_email patterns env firstName lastName domain).method
      ≠ "smtp_verified" := by
    have hs : basic_smtp patterns env (normTok firstName) (normTok lastName) domain = "" := by
      unfold basic_smtp
      split
      · exact h1 _
      · rfl
    simp only [find_email]
    rw [hs]
    split_ifs with hA hB hC hD
    · exact (by decide : ("" : String) ≠ "smtp_verified")
    · exact (by decide : ("website_scrape" : String) ≠ "smtp_verified")
    · exact absurd rfl hC
    · exact (by decide : ("github" : String) ≠ "smtp_verified")
    · exact (by decide : ("pattern_guess" : String) ≠ "smtp_verified")
  refine ⟨h1 candidates, ?_, hbasic⟩
  simp only [find_best_email]
  split
  · exact (by decide : ("" : String) ≠ "smtp_verified")
  · split
    · exact (by decide : ("" : String) ≠ "smtp_verified")
    · split
      · exact append_quota_tag_ne_smtp _
      · rw [h1 _]
        exact pick_method_ne_smtp _ _ _ _

/-- A catch-all environment: the MX host is reachable and accepts every
`RCPT TO`, including the fabricated probe address. -/
def envCatchall : ResearchEnv :=
  { envNone with
    mxHosts := ["mx.example.com"]
    canConnect := true
    smtpAccept := fun _ => true }

/-- Witness for C6: a concrete catch-all environment yields no SMTP-verified
candidate and a non-`smtp_verified` method. -/
theorem catchall_never_smtp_verified_witness :
    try_smtp_verification envCatchall ["jane.doe@example.com"] "example.com" = "" ∧
    (find_email specPatterns envCatchall "Jane" "Doe" "example.com").method
      ≠ "smtp_verified" := by
  have h := catchall_never_smtp_verified specPatterns envCatchall
    ⟨5, 0⟩ "Jane Doe" "Jane" "Doe" "example.com" ["jane.doe@example.com"] rfl
  exact ⟨h.1, h.2.2⟩

/-!
### Properties of the winner selection (`max(candidates, key=...)`)
-/

theorem pickBest_ge (score : String → Int) :
    ∀ (rest : List String) (hd : String), score hd ≤ score (pickBest score hd rest) := by
  intro rest
  induction rest with
  | nil => intro hd; exact le_refl _
  | cons c cs ih =>
    intro hd
    show score hd ≤ score (pickBest score (if score c > score hd then c else hd) cs)
    by_cases h : score c > score hd
    · rw [if_pos h]
      exact le_trans (le_of_lt h) (ih c)
    · rw [if_neg h]
      exact ih hd

/-- Python's `max` returns the first maximal element: the list splits into a
strictly-smaller prefix, the winner, and a no-larger suffix. -/
theorem pickBest_split (score : String → Int) :
    ∀ (rest : List String) (hd : String),
      ∃ l1 l2, hd :: rest = l1 ++ pickBest score hd rest :: l2 ∧
        (∀ x ∈ l1, score x < score (pickBest score hd rest)) ∧
        (∀ x ∈ l2, score x ≤ score (pickBest score hd rest)) := by
  intro rest
  induction rest with
  | nil =>
    intro hd
    exact ⟨[], [], rfl, by simp, by simp⟩
  | cons c cs ih =>
    intro hd
    by_cases h : score c > score hd
    · have hstep : pickBest score hd (c :: cs) = pickBest score c cs := by
        show pickBest score (if score c > score hd then c else hd) cs = _
        rw [if_pos h]
      rcases ih c with ⟨l1, l2, heq, h1, h2⟩
      refine ⟨hd :: l1, l2, ?_, ?_, ?_⟩
      · rw [hstep, List.cons_append, ← heq]
      · intro x hx
        rw [hstep]
        rcases List.mem_cons.mp hx with hx | hx
        · subst hx
          exact lt_of_lt_of_le h (pickBest_ge score cs c)
        · exact h1 x hx
      · intro x hx
        rw [hstep]
        exact h2 x hx
    · have hstep : pickBest score hd (c :: cs) = pickBest score hd cs := by
        show pickBest score (if score c > score hd then c else hd) cs = _
        rw [if_neg h]
      have hle : score c ≤ score hd := not_lt.mp h
      rcases ih hd with ⟨l1, l2, heq, h1, h2⟩
      cases l1 with
      | nil =>
        rw [List.nil_append, List.cons.injEq] at heq
        have hw1 : pickBest score hd cs = hd := heq.1.symm
        have hw2 : cs = l2 := heq.2
        refine ⟨[], c :: cs, ?_, by simp, ?_⟩
        · rw [hstep, hw1, List.nil_append]
        · intro x hx
          rw [hstep, hw1]
          rcases List.mem_cons.mp hx with hx | hx
          · subst hx
            exact hle
          · rw [hw2] at hx
            have := h2 x hx
            rw [hw1] at this
            exact this
      | cons a l1' =>
        have ha : a = hd ∧ cs = l1' ++ pickBest score hd cs :: l2 := by
          rw [List.cons_append] at heq
          injection heq with h1' h2'
          exact ⟨h1'.symm, h2'⟩
        refine ⟨hd :: c :: l1', l2, ?_, ?_, ?_⟩
        · rw [hstep, List.cons_append, List.cons_append, ← ha.2]
        · intro x hx
          rw [hstep]
          have hhd : score hd < score (pickBest score hd cs) := by
            have := h1 a (List.mem_cons_self a l1')
            rw [ha.1] at this
            exact this
          rcases List.mem_cons.mp hx with hx | hx
          · subst hx
            exact hhd
          · rcases List.mem_cons.mp hx with hx | hx
            · subst hx
              exact lt_of_le_of_lt hle hhd
            · exact h1 x (List.mem_cons_of_mem a hx)
        · intro x hx
          rw [hstep]
          exact h2 x hx

theorem pickBest_mem (score : String → Int) (rest : List String) (hd : String) :
    pickBest score hd rest ∈ hd :: rest := by
  rcases pickBest_split score rest hd with ⟨l1, l2, heq, _, _⟩
  rw [heq]
  exact List.mem_append_right l1 (List.mem_cons_self _ _)

theorem pickBest_eq_head (score : String → Int) :
    ∀ (rest : List String) (hd : String), (∀ c ∈ rest, ¬ score hd < score c) →
      pickBest score hd rest = hd := by
  intro rest
  induction rest with
  | nil => intro hd _; rfl
  | cons c cs ih =>
    intro hd h
    show pickBest score (if score c > score hd then c else hd) cs = hd
    rw [if_neg (h c (List.mem_cons_self c cs))]
    exact ih hd (fun x hx => h x (List.mem_cons_of_mem c hx))

/-- An environment whose website scrape yields an address that is not a
generated candidate but matches the person by local-part containment. -/
def envScrape : ResearchEnv :=
  { envNone with websiteEmails := ["janedoe123@example.com"] }

/-- Claim C10: in the deep (non-fallback) path of `find_best_email` the
returned email is always a member of the returned `all_candidates` list (the
winner is chosen by maximizing score over generated candidates only), while
the fallback `EmailFinder.find_email` can return a scraped website address
that is not among its candidates. -/
theorem deep_email_among_candidates (patterns : List String) (env : ResearchEnv)
    (q : QuotaState) (fullName domain : String) (hd : String) (rest : List String)
    (hf : (normalize_name fullName).1 ≠ "")
    (hc : build_candidates patterns (normalize_name fullName).1
        (if (normalize_name fullName).2 = "" then (normalize_name fullName).1
         else (normalize_name fullName).2) domain = hd :: rest)
    (hq : can_process q = true) :
    (find_best_email patterns env q fullName domain).1.email
        ∈ (find_best_email patterns env q fullName domain).1.all_candidates ∧
    (find_email specPatterns envScrape "Jane" "Doe" "example.com").email
        ∉ (find_email specPatterns envScrape "Jane" "Doe" "example.com").all_candidates := by
  have hqq : ¬ (can_process q = false) := by
    rw [hq]
    intro h
    exact absurd h (by decide)
  constructor
  · simp only [find_best_email]
    rw [if_neg hf, hc]
    simp only [hq]
    exact pickBest_mem _ rest hd
  · decide

/-- Witness for C10 at a concrete deep-path resolution. -/
theorem deep_email_among_candidates_witness :
    (find_best_email specPatterns envNone ⟨5, 0⟩ "Jane Doe" "example.com").1.email
      ∈ (find_best_email specPatterns envNone ⟨5, 0⟩ "Jane Doe" "example.com").1.all_candidates :=
  (deep_email_among_candidates specPatterns envNone ⟨5, 0⟩ "Jane Doe" "example.com"
    "jane.doe@example.com" ["jane@example.com", "jdoe@example.com"]
    (by decide) (by decide) (by decide)).1

/-!
### The fallback resolver's never-empty guarantee
-/

theorem take1_ne_empty (s : String) (h : s ≠ "") : take1 s ≠ "" := by
  rw [ne_empty_iff_data] at h ⊢
  show s.data.take 1 ≠ []
  cases hs : s.data with
  | nil => exact absurd hs h
  | cons c cs => simp

theorem substPattern_ne_empty (p first last f l domain : String)
    (hp : p ≠ "") (hF : first ≠ "") (hL : last ≠ "") (hf : f ≠ "") (hl : l ≠ "")
    (hD : domain ≠ "") :
    substPattern p first last f l domain ≠ "" := by
  rw [ne_empty_iff_data] at hp hF hL hf hl hD ⊢
  show replaceL "{domain}".data domain.data
      (replaceL "{l}".data l.data
        (replaceL "{f}".data f.data
          (replaceL "{last}".data last.data
            (replaceL "{first}".data first.data p.data)))) ≠ []
  exact replaceL_ne_nil _ _ _
    (replaceL_ne_nil _ _ _
      (replaceL_ne_nil _ _ _
        (replaceL_ne_nil _ _ _
          (replaceL_ne_nil _ _ _ hp hF) hL) hf) hl) hD

theorem dotted_guess_ne_empty (first last domain : String) :
    first ++ "." ++ last ++ "@" ++ domain ≠ "" := by
  rw [ne_empty_iff_data]
  simp [data_append, show ("." : String).data = ['.'] from rfl,
    show ("@" : String).data = ['@'] from rfl]

theorem best_guess_ne_empty (patterns : List String) (first last domain : String)
    (hp : "" ∉ patterns) (hF : first ≠ "") (hL : last ≠ "") (hD : domain ≠ "") :
    best_guess patterns first last domain ≠ "" := by
  unfold best_guess
  cases patterns with
  | nil =>
    show (match ([] : List String) with
      | [] => first ++ "." ++ last ++ "@" ++ domain
      | c :: _ => c) ≠ ""
    exact dotted_guess_ne_empty first last domain
  | cons p ps =>
    have hchar := buildStepBasic_char first last (take1 first) (take1 last) domain
    have hpne : p ≠ "" := fun h => hp (h ▸ List.mem_cons_self p ps)
    have hsub : substPattern p first last (take1 first) (take1 last) domain ≠ "" :=
      substPattern_ne_empty p first last (take1 first) (take1 last) domain hpne hF hL
        (take1_ne_empty first hF) (take1_ne_empty last hL) hD
    have hstep : buildStepBasic first last (take1 first) (take1 last) domain [] p
        = [substPattern p first last (take1 first) (take1 last) domain] := by
      simp [buildStepBasic]
    have hne : build_candidates_basic (p :: ps) first last domain ≠ [] := by
      unfold build_candidates_basic
      rw [List.foldl_cons, hstep]
      exact foldl_step_ne_nil hchar ps _ (by simp)
    have hhead : (build_candidates_basic (p :: ps) first last domain).head?
        = some (substPattern p first last (take1 first) (take1 last) domain) := by
      unfold build_candidates_basic
      rw [List.foldl_cons, hstep]
      rw [foldl_step_head hchar ps _ (by simp)]
      rfl
    cases hcb : build_candidates_basic (p :: ps) first last domain with
    | nil => exact absurd hcb hne
    | cons e t =>
      rw [hcb] at hhead
      have he : e = substPattern p first last (take1 first) (take1 last) domain := by
        simpa using hhead
      exact he ▸ hsub

/-- Claim C4: for every call of `EmailFinder.find_email` whose normalized
first name, normalized last name, and domain are all nonempty (and whose
configured templates are nonempty strings), the returned email is nonempty;
and when the website scrape, SMTP verification, and GitHub probe all yield
nothing, the best-guess pattern candidate is returned with confidence `low`
and method `pattern_guess`. -/
theorem find_email_never_empty (patterns : List String) (env : ResearchEnv)
    (firstName lastName domain : String)
    (hF : normTok firstName ≠ "") (hL : normTok lastName ≠ "") (hD : domain ≠ "")
    (hp : "" ∉ patterns) :
    (find_email patterns env firstName lastName domain).email ≠ "" ∧
    (match_website_email (normTok firstName) (normTok lastName) env.websiteEmails = "" →
     basic_smtp patterns env (normTok firstName) (normTok lastName) domain = "" →
     env.githubEmail = "" →
     find_email patterns env firstName lastName domain
       = ⟨best_guess patterns (normTok firstName) (normTok lastName) domain, "low",
          basic_all_candidates patterns (normTok firstName) (normTok lastName) domain,
          "pattern_guess"⟩) := by
  have hcond : ¬(normTok firstName = "" ∨ normTok lastName = "" ∨ domain = "") := by
    rintro (h | h | h)
    · exact hF h
    · exact hL h
    · exact hD h
  have hbg := best_guess_ne_empty patterns (normTok firstName) (normTok lastName)
    domain hp hF hL hD
  constructor
  · simp only [find_email]
    rw [if_neg hcond]
    split_ifs with h1 h2 h3
    · exact h1
    · exact h2
    · exact h3
    · exact hbg
  · intro hw hs hg
    simp only [find_email]
    rw [if_neg hcond, hw, hs, hg]
    rw [if_neg (show ¬("" : String) ≠ "" from fun h => h rfl),
      if_neg (show ¬("" : String) ≠ "" from fun h => h rfl),
      if_neg (show ¬("" : String) ≠ "" from fun h => h rfl)]

/-- Claim C1: whenever `find_best_email` reaches evidence scoring (usable
first name, nonempty candidate list, quota available), the returned confidence
is `_score_to_confidence` of the winning candidate's accumulated score, and
the mapping satisfies the boundary values: 85 is `high`, 84 and 55 are
`medium`, 54 is `low`. -/
theorem find_best_email_confidence (patterns : List String) (env : ResearchEnv)
    (q : QuotaState) (fullName domain : String) (hd : String) (rest : List String)
    (hf : (normalize_name fullName).1 ≠ "")
    (hc : build_candidates patterns (normalize_name fullName).1
        (if (normalize_name fullName).2 = "" then (normalize_name fullName).1
         else (normalize_name fullName).2) domain = hd :: rest)
    (hq : can_process q = true) :
    (find_best_email patterns env q fullName domain).1.confidence
      = score_to_confidence
          (score_of hd
            (match_known_email (normalize_name fullName).1
              (if (normalize_name fullName).2 = "" then (normalize_name fullName).1
               else (normalize_name fullName).2) env.websiteEmails)
            (((hd :: rest).take env.maxWebQueries).filter env.mentionFound)
            env.contextualHits
            (try_smtp_verification env (hd :: rest) domain)
            ((find_best_email patterns env q fullName domain).1.email)) ∧
    score_to_confidence 85 = "high" ∧ score_to_confidence 84 = "medium" ∧
    score_to_confidence 55 = "medium" ∧ score_to_confidence 54 = "low" := by
  refine ⟨?_, by decide, by decide, by decide, by decide⟩
  simp only [find_best_email]
  rw [if_neg hf, hc]
  simp only [hq]
  rfl

/-- Witness for C1 at a concrete no-evidence resolution (score 8 maps to
`low`). -/
theorem find_best_email_confidence_witness :
    (find_best_email specPatterns envNone ⟨5, 0⟩ "Jane Doe" "example.com").1.confidence
      = "low" := by
  have h := find_best_email_confidence specPatterns envNone ⟨5, 0⟩ "Jane Doe"
    "example.com" "jane.doe@example.com" ["jane@example.com", "jdoe@example.com"]
    (by decide) (by decide) (by decide)
  rw [h.1]
  decide

theorem mk_data (s : String) : (⟨s.data⟩ : String) = s := by
  cases s
  rfl

theorem takeWhile_append_stop (p : Char → Bool) :
    ∀ (l1 : List Char) (a : Char) (l2 : List Char),
      (∀ c ∈ l1, p c = true) → p a = false → (l1 ++ a :: l2).takeWhile p = l1 := by
  intro l1
  induction l1 with
  | nil =>
    intro a l2 _ ha
    simp [List.takeWhile_cons, ha]
  | cons c cs ih =>
    intro a l2 h ha
    rw [List.cons_append, List.takeWhile_cons, h c (List.mem_cons_self c cs)]
    simp only [ite_true]
    rw [ih a l2 (fun x hx => h x (List.mem_cons_of_mem c hx)) ha]

theorem localPart_at (x domain : String) (hx : ∀ c ∈ x.data, c ≠ '@') :
    localPartL (x ++ "@" ++ domain) = x.data := by
  unfold localPartL
  rw [data_concat_at]
  apply takeWhile_append_stop
  · intro c hc
    exact decide_eq_true (hx c hc)
  · rfl

theorem az_ne_at {c : Char} (h : isAz c = true) : c ≠ '@' := by
  intro he
  rw [he] at h
  exact absurd h (by decide)

/-- With no evidence at all, the first candidate `first.last@domain` scores
exactly the `+8` default prior: its local part is longer than 2 characters and
is not a generic alias (it contains a dot). -/
theorem score_head_no_evidence (first last domain : String)
    (hF : ∀ c ∈ first.data, isAz c = true) (hL : ∀ c ∈ last.data, isAz c = true)
    (hfne : first ≠ "") (hlne : last ≠ "") :
    score_of (first ++ "." ++ last ++ "@" ++ domain) "" [] [] ""
      (first ++ "." ++ last ++ "@" ++ domain) = 8 := by
  have hx : ∀ c ∈ ((first ++ ".") ++ last).data, c ≠ '@' := by
    intro c hc
    rw [data_append, data_append] at hc
    simp only [List.mem_append, show ("." : String).data = ['.'] from rfl,
      List.mem_cons, List.not_mem_nil, or_false] at hc
    rcases hc with (hc | hc) | hc
    · exact az_ne_at (hF c hc)
    · subst hc; decide
    · exact az_ne_at (hL c hc)
  have hlp : localPartL (first ++ "." ++ last ++ "@" ++ domain)
      = ((first ++ ".") ++ last).data := localPart_at _ domain hx
  have hF1 : first.data ≠ [] := (ne_empty_iff_data first).mp hfne
  have hL1 : last.data ≠ [] := (ne_empty_iff_data last).mp hlne
  have hlen : ¬ (localPartL (first ++ "." ++ last ++ "@" ++ domain)).length ≤ 2 := by
    rw [hlp, data_append, data_append]
    simp only [List.length_append, show ("." : String).data = ['.'] from rfl,
      List.length_cons, List.length_nil]
    have h1 : 0 < first.data.length := List.length_pos.mpr hF1
    have h2 : 0 < last.data.length := List.length_pos.mpr hL1
    omega
  have hdot : ('.' : Char) ∈ ((first ++ ".") ++ last).data := by
    rw [data_append, data_append]
    simp [show ("." : String).data = ['.'] from rfl]
  have halias :
      ¬ ((⟨localPartL (first ++ "." ++ last ++ "@" ++ domain)⟩ : String)
          ∈ genericPenaltyAliases) := by
    rw [hlp, mk_data]
    intro hmem
    simp only [genericPenaltyAliases, List.mem_cons, List.not_mem_nil, or_false] at hmem
    rcases hmem with h | h | h | h | h <;>
      · rw [h] at hdot
        exact absurd hdot (by decide)
  unfold score_of
  rw [if_pos rfl, if_neg hlen, if_neg halias]
  simp

/-- With no evidence, a non-first candidate collects only penalties. -/
theorem score_of_nonhead_no_evidence (hd c : String) (hne : c ≠ hd) :
    score_of hd "" [] [] "" c ≤ 0 := by
  unfold score_of
  rw [if_neg hne]
  simp only [ne_eq, not_true_eq_false, false_and, if_false, List.not_mem_nil, ite_false]
  split_ifs <;> omega

/-- With no evidence the default-prior candidate at the head strictly
outscores every other candidate, so Python's stable `max` keeps it. -/
theorem no_evidence_first_wins (first last domain : String) (rest : List String)
    (hFaz : ∀ c ∈ first.data, isAz c = true) (hLaz : ∀ c ∈ last.data, isAz c = true)
    (hfne : first ≠ "") (hlne : last ≠ "")
    (hnodup : ((first ++ "." ++ last ++ "@" ++ domain) :: rest).Nodup) :
    pickBest (score_of (first ++ "." ++ last ++ "@" ++ domain) "" [] [] "")
      (first ++ "." ++ last ++ "@" ++ domain) rest
      = first ++ "." ++ last ++ "@" ++ domain := by
  apply pickBest_eq_head
  intro c hcm
  have hcne : c ≠ first ++ "." ++ last ++ "@" ++ domain := by
    intro he
    exact (List.nodup_cons.mp hnodup).1 (he ▸ hcm)
  rw [score_head_no_evidence first last domain hFaz hLaz hfne hlne]
  have h1 := score_of_nonhead_no_evidence (first ++ "." ++ last ++ "@" ++ domain) c hcne
  omega

/-- Claim C2: (i) adding evidence never decreases a candidate's score (every
evidence bonus is non-negative); (ii) the winner selection is Python's stable
`max`: the candidate list splits into a strictly-smaller prefix, the winner,
and a no-larger suffix, so ties break toward earlier-generated candidates;
(iii) when no evidence collector produces any signal, the first generated
candidate (the spec-modelled `first.last@domain` pattern) is the returned
email. -/
theorem scoring_monotone_and_first_wins :
    (∀ (hd wm : String) (mh ch : List String) (sv c : String),
        score_of hd "" [] [] "" c ≤ score_of hd wm mh ch sv c) ∧
    (∀ (score : String → Int) (hd : String) (rest : List String),
        ∃ l1 l2, hd :: rest = l1 ++ pickBest score hd rest :: l2 ∧
          (∀ x ∈ l1, score x < score (pickBest score hd rest)) ∧
          (∀ x ∈ l2, score x ≤ score (pickBest score hd rest))) ∧
    (∀ (env : ResearchEnv) (q : QuotaState) (fullName domain : String)
        (hd : String) (rest : List String),
      (normalize_name fullName).1 ≠ "" →
      build_candidates specPatterns (normalize_name fullName).1
          (if (normalize_name fullName).2 = "" then (normalize_name fullName).1
           else (normalize_name fullName).2) domain = hd :: rest →
      can_process q = true →
      match_known_email (normalize_name fullName).1
          (if (normalize_name fullName).2 = "" then (normalize_name fullName).1
           else (normalize_name fullName).2) env.websiteEmails = "" →
      (∀ cand, env.mentionFound cand = false) →
      env.contextualHits = [] →
      try_smtp_verification env (hd :: rest) domain = "" →
      (find_best_email specPatterns env q fullName domain).1.email = hd ∧
      hd = (normalize_name fullName).1 ++ "." ++
          (if (normalize_name fullName).2 = "" then (normalize_name fullName).1
           else (normalize_name fullName).2) ++ "@" ++ domain) := by
  refine ⟨?_, fun score hd rest => pickBest_split score rest hd, ?_⟩
  · intro hd wm mh ch sv c
    unfold score_of
    have e2 : (if ("" : String) ≠ "" ∧ c = "" then (90 : Int) else 0) = 0 := by simp
    have e5 : (if ("" : String) ≠ "" ∧ c = "" then (65 : Int) else 0) = 0 := by simp
    have e3 : (if c ∈ ([] : List String) then (75 : Int) else 0) = 0 := by simp
    have e4 : (if c ∈ ([] : List String) then (55 : Int) else 0) = 0 := by simp
    rw [e2, e3, e4, e5]
    have b2 : (0 : Int) ≤ if wm ≠ "" ∧ c = wm then (90 : Int) else 0 := by
      split_ifs <;> omega
    have b3 : (0 : Int) ≤ if c ∈ mh then (75 : Int) else 0 := by
      split_ifs <;> omega
    have b4 : (0 : Int) ≤ if c ∈ ch then (55 : Int) else 0 := by
      split_ifs <;> omega
    have b5 : (0 : Int) ≤ if sv ≠ "" ∧ c = sv then (65 : Int) else 0 := by
      split_ifs <;> omega
    linarith
  · intro env q fullName domain hd rest hf hc hq hw hm hctx hsm
    have hFaz := (normalize_name_az fullName).1
    have hLaz : ∀ c ∈ (if (normalize_name fullName).2 = "" then (normalize_name fullName).1
        else (normalize_name fullName).2).data, isAz c = true := by
      split
      · exact (normalize_name_az fullName).1
      · exact (normalize_name_az fullName).2
    have hlne : (if (normalize_name fullName).2 = "" then (normalize_name fullName).1
        else (normalize_name fullName).2) ≠ "" := by
      split
      · exact hf
      · next h => exact h
    have hhead := (build_candidates_spec_head (normalize_name fullName).1
      (if (normalize_name fullName).2 = "" then (normalize_name fullName).1
       else (normalize_name fullName).2) domain hFaz hLaz).2
    rw [hc] at hhead
    have hde : hd = (normalize_name fullName).1 ++ "." ++
        (if (normalize_name fullName).2 = "" then (normalize_name fullName).1
         else (normalize_name fullName).2) ++ "@" ++ domain := by
      simpa using hhead
    have hnd := build_candidates_nodup specPatterns (normalize_name fullName).1
      (if (normalize_name fullName).2 = "" then (normalize_name fullName).1
       else (normalize_name fullName).2) domain
    rw [hc] at hnd
    have hfilter : ((hd :: rest).take env.maxWebQueries).filter env.mentionFound = [] := by
      apply List.filter_eq_nil_iff.mpr
      intro a _
      simp [hm a]
    refine ⟨?_, hde⟩
    simp only [find_best_email]
    rw [if_neg hf, hc]
    simp only [hq]
    show pickBest (score_of hd
        (match_known_email (normalize_name fullName).1
          (if (normalize_name fullName).2 = "" then (normalize_name fullName).1
           else (normalize_name fullName).2) env.websiteEmails)
        (((hd :: rest).take env.maxWebQueries).filter env.mentionFound)
        env.contextualHits
        (try_smtp_verification env (hd :: rest) domain)) hd rest = hd
    rw [hw, hfilter, hctx, hsm]
    subst hde
    exact no_evidence_first_wins (normalize_name fullName).1
      (if (normalize_name fullName).2 = "" then (normalize_name fullName).1
       else (normalize_name fullName).2) domain rest hFaz hLaz hf hlne hnd

/-- Witness for C2: in a no-evidence environment the concrete resolution
returns the first generated candidate. -/
theorem scoring_monotone_and_first_wins_witness :
    (find_best_email specPatterns envNone ⟨5, 0⟩ "Jane Doe" "example.com").1.email
      = "jane.doe@example.com" := by
  have h := (scoring_monotone_and_first_wins).2.2 envNone ⟨5, 0⟩ "Jane Doe" "example.com"
    "jane.doe@example.com" ["jane@example.com", "jdoe@example.com"]
    (by decide) (by decide) (by decide) (by decide) (fun _ => rfl) rfl (by decide)
  exact h.1

/-- Witness for C4: with every collector failing, the concrete call returns
the nonempty best-guess pattern with `low` confidence. -/
theorem find_email_never_empty_witness :
    (find_email specPatterns envNone "Jane" "Doe" "example.com").email ≠ "" ∧
    (find_email specPatterns envNone "Jane" "Doe" "example.com").email
      = "jane.doe@example.com" := by
  have h := find_email_never_empty specPatterns envNone "Jane" "Doe" "example.com"
    (by decide) (by decide) (by decide) (by decide)
  refine ⟨h.1, ?_⟩
  rw [h.2 (by decide) (by decide) rfl]
  decide

/-!
## Domain resolution — `src/research/domain_finder.py` and
`src/research/company_variants.py`

The three network-backed strategies are modelled as oracles: DNS A-record
resolution (`dnsA`), and the first non-denylisted domain produced by the
DuckDuckGo and Google searches for `"<company> official website"` (`ddg`,
`google`; `none` models both a failed request and no acceptable result link).
The DNS slug probe is modelled concretely, since claim C8 depends on its slug
construction.
-/

/-- Environment of the domain-finder strategies. -/
structure DomainEnv where
  /-- `dns.resolver.resolve(host, "A")` succeeds. -/
  dnsA : String → Bool
  /-- Outcome of `_duckduckgo_search(company_name)`. -/
  ddg : String → Option String
  /-- Outcome of `_google_search(company_name)`. -/
  google : String → Option String
  /-- `research.common_tlds` from the settings. -/
  tlds : List String

/-- `re.sub(r"^www\.", "", hint)`. -/
def dropWWW (l : List Char) : List Char :=
  if isPrefixOfL "www.".data l then l.drop 4 else l

/-- `DomainFinder._validate_domain_hint`: lowercase, strip, drop a leading
`www.`, and accept iff the host has an A record (the slug comparison in the
source affects only logging: both branches return the hint). -/
def validate_domain_hint (env : DomainEnv) (hint : String) : Option String :=
  let h : String := ⟨dropWWW (stripWS (hint.data.map Char.toLower))⟩
  if env.dnsA h then some h else none

/-- Inner loop of `_dns_probe`: try each TLD for one slug. -/
def probeTlds (env : DomainEnv) (slug : List Char) : List String → Option String
  | [] => none
  | t :: ts =>
    let cand : String := ⟨slug⟩ ++ t
    if env.dnsA cand then some cand else probeTlds env slug ts

/-- Outer loop of `_dns_probe`: skip slugs shorter than 2 characters, return
the first slug+TLD whose A lookup succeeds. -/
def probeSlugs (env : DomainEnv) : List (List Char) → Option String
  | [] => none
  | s :: ss =>
    if s.length < 2 then probeSlugs env ss
    else
      match probeTlds env s env.tlds with
      | some d => some d
      | none => probeSlugs env ss

/-- Order-preserving deduplication of the slug list (the source builds a
Python `set`, whose iteration order is unspecified; the theorems below only
exercise environments in which at most one slug resolves, so the fixed
insertion order is immaterial). -/
def dedupSlugs : List (List Char) → List (List Char)
  | [] => []
  | s :: ss => s :: (dedupSlugs ss).filter (fun t => t ≠ s)

/-- The slug variations built by `_dns_probe` from the words of the lowered
name: all words joined, the first word alone, the hyphenated join (for
multi-word names), and the first two words joined. -/
def dnsProbeSlugs (words : List (List Char)) : List (List Char) :=
  match words with
  | [] => []
  | w :: ws =>
    dedupSlugs ([(w :: ws).flatten, w]
      ++ (if ws ≠ [] then [List.intercalate ['-'] (w :: ws)] else [])
      ++ (match ws with
          | w2 :: _ => [w ++ w2]
          | [] => []))

/-- `DomainFinder._dns_probe`. -/
def dns_probe (env : DomainEnv) (companyName : String) : Option String :=
  let name := stripWS (companyName.data.map Char.toLower)
  let words := wordRuns isAlnumLow name
  match words with
  | [] => none
  | w :: ws => probeSlugs env (dnsProbeSlugs (w :: ws))

/-- First-match association-list lookup (the `self._cache` dict). -/
def lookupC : List (String × String) → String → Option String
  | [], _ => none
  | (k, v) :: rest, key => if k = key then some v else lookupC rest key

/-- The cache key: `company_name.strip().lower()`. -/
def cacheKey (companyName : String) : String :=
  ⟨(stripWS companyName.data).map Char.toLower⟩

/-- Result of one `find_domain` call: the returned domain, the cache
afterwards, and whether any strategy (external lookup) ran. -/
structure DomainOutcome where
  result : Option String
  cache : List (String × String)
  lookedUp : Bool
deriving DecidableEq

/-- The strategy chain of `find_domain` (`if not domain:` steps 1-4): hint
validation if a hint is supplied, then DuckDuckGo, then Google, then the DNS
slug probe; first success wins. -/
def strategy_chain (env : DomainEnv) (companyName hint : String) : Option String :=
  let d1 : Option String := if hint ≠ "" then validate_domain_hint env hint else none
  let d2 : Option String := match d1 with
    | some d => some d
    | none => env.ddg companyName
  let d3 : Option String := match d2 with
    | some d => some d
    | none => env.google companyName
  match d3 with
  | some d => some d
  | none => dns_probe env companyName

/-- `DomainFinder.find_domain`: cached value first, then the strategy chain;
a success is cached under the lowercased, trimmed company name. -/
def find_domain (env : DomainEnv) (cache : List (String × String))
    (companyName hint : String) : DomainOutcome :=
  match lookupC cache (cacheKey companyName) with
  | some d => ⟨some d, cache, false⟩
  | none =>
    match strategy_chain env companyName hint with
    | some d => ⟨some d, (cacheKey companyName, d) :: cache, true⟩
    | none => ⟨none, cache, true⟩

/-- Claim C7: once `find_domain` returns a domain for a company name, a second
call with the same name (case-insensitively, after trimming) returns the
identical domain from the cache without running any strategy, leaving the
cache unchanged; and no call ever invalidates an existing cache binding. -/
theorem find_domain_idempotent (env : DomainEnv) (cache : List (String × String))
    (n1 hint1 n2 hint2 d : String)
    (hres : (find_domain env cache n1 hint1).result = some d)
    (hkey : cacheKey n2 = cacheKey n1) :
    find_domain env (find_domain env cache n1 hint1).cache n2 hint2
      = ⟨some d, (find_domain env cache n1 hint1).cache, false⟩ ∧
    (∀ (n3 hint3 k v : String), lookupC cache k = some v →
      lookupC (find_domain env cache n3 hint3).cache k = some v) := by
  have hpreserve : ∀ (n3 hint3 k v : String), lookupC cache k = some v →
      lookupC (find_domain env cache n3 hint3).cache k = some v := by
    intro n3 hint3 k v hkv
    cases hl : lookupC cache (cacheKey n3) with
    | some d0 =>
      have : (find_domain env cache n3 hint3).cache = cache := by
        simp [find_domain, hl]
      rw [this]
      exact hkv
    | none =>
      cases hs : strategy_chain env n3 hint3 with
      | some dd =>
        have : (find_domain env cache n3 hint3).cache = (cacheKey n3, dd) :: cache := by
          simp [find_domain, hl, hs]
        rw [this]
        have hk : cacheKey n3 ≠ k := by
          intro he
          rw [he] at hl
          rw [hl] at hkv
          exact Option.noConfusion hkv
        simp [lookupC, hk]
        exact hkv
      | none =>
        have : (find_domain env cache n3 hint3).cache = cache := by
          simp [find_domain, hl, hs]
        rw [this]
        exact hkv
  refine ⟨?_, hpreserve⟩
  cases hl : lookupC cache (cacheKey n1) with
  | some d0 =>
    have hfd : find_domain env cache n1 hint1 = ⟨some d0, cache, false⟩ := by
      simp [find_domain, hl]
    rw [hfd] at hres
    have hd0 : d0 = d := by simpa using hres
    rw [hfd]
    simp [find_domain, hkey, hl, hd0]
  | none =>
    cases hs : strategy_chain env n1 hint1 with
    | some dd =>
      have hfd : find_domain env cache n1 hint1
          = ⟨some dd, (cacheKey n1, dd) :: cache, true⟩ := by
        simp [find_domain, hl, hs]
      rw [hfd] at hres
      have hdd : dd = d := by simpa using hres
      rw [hfd]
      simp [find_domain, lookupC, hkey, hdd]
    | none =>
      have hfd : find_domain env cache n1 hint1 = ⟨none, cache, true⟩ := by
        simp [find_domain, hl, hs]
      rw [hfd] at hres
      exact absurd hres (by simp)

/-- An environment in which the search strategy succeeds for the shortened
name `Tactful` but not for `Tactful AI`, and DNS resolves nothing. -/
def envVariantSearch : DomainEnv :=
  { dnsA := fun _ => false
    ddg := fun n => if n = "Tactful" then some "tactful.ai" else none
    google := fun _ => none
    tlds := [".com", ".ai", ".io"] }

/-- Witness for C7: a resolved name is answered from the cache on the second,
differently-cased call, with no lookup. -/
theorem find_domain_idempotent_witness :
    find_domain envVariantSearch (find_domain envVariantSearch [] "Tactful" "").cache
        " TACTFUL " ""
      = ⟨some "tactful.ai", (find_domain envVariantSearch [] "Tactful" "").cache, false⟩ :=
  (find_domain_idempotent envVariantSearch [] "Tactful" "" " TACTFUL " "" "tactful.ai"
    (by decide) (by decide)).1

/-- Claim C8 counterexample: `find_domain` does not retry the strategy chain
with the suffix-stripped name variant.  In an environment where the search
strategy resolves the shortened name `Tactful` (so the variant resolves) but
nothing resolves for `Tactful AI`, `find_domain "Tactful AI"` returns `none`. -/
theorem find_domain_no_variant_retry :
    (find_domain envVariantSearch [] "Tactful" "").result = some "tactful.ai" ∧
    (find_domain envVariantSearch [] "Tactful AI" "").result = none := by
  exact ⟨by decide, by decide⟩

/-- An environment in which only the DNS A record of `tactful.ai` exists. -/
def envTactfulDNS : DomainEnv :=
  { dnsA := fun s => s = "tactful.ai"
    ddg := fun _ => none
    google := fun _ => none
    tlds := [".com", ".ai", ".io"] }

/-- Claim C8 (amended): `find_domain` itself never retries the strategy chain
with name variants; shortened-name handling inside domain resolution exists
only in the DNS-probe strategy, which also probes the first-word slug — so
`Tactful AI` resolves via `tactful` exactly when some `tactful`+TLD
combination has a DNS A record. -/
theorem find_domain_first_word_slug :
    (find_domain envTactfulDNS [] "Tactful AI" "").result = some "tactful.ai" ∧
    dns_probe envTactfulDNS "Tactful AI" = some "tactful.ai" ∧
    envTactfulDNS.ddg "Tactful AI" = none ∧ envTactfulDNS.google "Tactful AI" = none := by
  exact ⟨by decide, by decide, rfl, rfl⟩

end OutPilot
